import Mathlib

/-!
Verification of `cartographer.py` (repository mapping and change detection).

The Python source is shallowly embedded as follows.

* Paths and digests are Lean `String`s; `String.data` (a `List Char`) is used
  for character-level reasoning.  Python compares strings by code point, which
  coincides with Lean `Char` comparison by `Char.val`.
* Bytes are `Nat`s below 256; file contents are `List Nat`.  `hashlib.md5` is
  embedded as a full MD5 implementation over byte lists (RFC 1321), and
  `str.encode()` as a UTF-8 encoder.
* The filesystem that `os.walk` traverses is modelled as a finite list of
  files, each given by its path segments (ancestor directory names followed by
  the file name).  `os.walk` enumerates exactly these files; its enumeration
  order is immaterial because `select_files` sorts its result.
* `sorted` on `pathlib.Path` values orders them by their `parts` tuples
  (every CPython version), components compared by code point; under a common
  root this orders the relative paths by their slash-separated component
  sequences.  Embedded as insertion sort by `partsLe`.  The code-point
  lexicographic order on whole path strings (`pathLe`) is kept separately as
  the order the spec asserts, for comparison.
* Reading a file is a function `String → Option (List Nat)`; `none` models a
  read failure (`IOError`/`OSError`).
* Python `dict`s are association lists (iteration order = list order); Python
  sets are lists considered up to membership.
-/

set_option maxRecDepth 16384

namespace Cartographer

/-! ### String primitives

Small self-contained character-level operations used by the embedding.
`strStartsWith s pre` is Python `s.startswith(pre)`; `strEndsWith s suf` is
`s.endswith(suf)`; `hasChar l c` is Python `c in s` for a single character;
`hasElem` is list/set membership with decidable equality. -/

def strStartsWith (s pre : String) : Bool := pre.data.isPrefixOf s.data

def strEndsWith (s suf : String) : Bool := suf.data.isSuffixOf s.data

def hasChar : List Char → Char → Bool
  | [], _ => false
  | x :: xs, c => if x = c then true else hasChar xs c

def hasElem {α : Type} [DecidableEq α] : List α → α → Bool
  | [], _ => false
  | x :: xs, a => if x = a then true else hasElem xs a

/-- Python `path.replace("\\", "/")`: the needle is a single character, so the
replacement is a character map. -/
def toSlash (s : String) : String :=
  ⟨s.data.map (fun c => if c = '\\' then '/' else c)⟩

/-- `rel_path[2:] if rel_path.startswith("./") else rel_path`
(cartographer.py lines 111-112). -/
def stripDotSlash (s : String) : String :=
  if strStartsWith s "./" then ⟨s.data.drop 2⟩ else s

/-- Join path segments with `/`, as `os.path.join` produces on POSIX and as
`"/".join(...)` does. -/
def joinSegs : List String → String
  | [] => ""
  | [x] => x
  | x :: y :: r => x ++ "/" ++ joinSegs (y :: r)

def splitCharAux (c : Char) : List Char → List Char → List (List Char)
  | [], acc => [acc.reverse]
  | x :: xs, acc =>
    if x = c then acc.reverse :: splitCharAux c xs []
    else splitCharAux c xs (x :: acc)

/-- `PurePosixPath(p).parts` for a relative path: split on `/`, dropping empty
components and `.` components (pathlib normalises both away). -/
def pyParts (p : String) : List String :=
  ((splitCharAux '/' p.data []).map (fun l => (⟨l⟩ : String))).filter
    (fun s => s ≠ "" && s ≠ ".")

/-! ### Code-point lexicographic order on strings

Python compares strings (and hence `PurePath` values under a common root)
lexicographically by code point; `sorted` uses this order.  Tuples compare
lexicographically componentwise. -/

def lexLe : List Char → List Char → Bool
  | [], _ => true
  | _ :: _, [] => false
  | a :: as, b :: bs => if a < b then true else if a = b then lexLe as bs else false

def strLe (a b : String) : Bool := lexLe a.data b.data

/-- Code-point lexicographic order on whole path strings.  This is the order
claim C6 asserts for the output of `select_files`; the program itself orders
`Path` values by `parts` tuples (`partsLe` below), which disagrees with this
order, e.g. on `a/x` versus `a.txt`. -/
def pathLe (a b : String) : Prop := strLe a b = true

instance : DecidableRel pathLe := fun a b => instDecidableEqBool (strLe a b) true

def lexLt : List Char → List Char → Bool
  | [], [] => false
  | [], _ :: _ => true
  | _ :: _, [] => false
  | a :: as, b :: bs => if a < b then true else if a = b then lexLt as bs else false

def strLt (a b : String) : Bool := lexLt a.data b.data

/-- Python tuple comparison for sequences of strings: lexicographic on the
components, a proper prefix coming first. -/
def segsLeB : List String → List String → Bool
  | [], _ => true
  | _ :: _, [] => false
  | a :: as, b :: bs => if a = b then segsLeB as bs else strLt a b

/-- The order `sorted` uses on `pathlib.Path` values (`PurePath.__lt__`
compares the `parts` tuples): relative paths compared by their component
sequences. -/
def partsLe (a b : String) : Prop := segsLeB (pyParts a) (pyParts b) = true

instance : DecidableRel partsLe := fun a b =>
  instDecidableEqBool (segsLeB (pyParts a) (pyParts b)) true

/-- Python tuple comparison for `(path, hash)` pairs, used by
`sorted((path, hash_val) ...)` in `compute_folder_hash`. -/
def pairLeB (x y : String × String) : Bool :=
  if x.1 = y.1 then strLe x.2 y.2 else strLe x.1 y.1

def pairLe (x y : String × String) : Prop := pairLeB x y = true

instance : DecidableRel pairLe := fun x y => instDecidableEqBool (pairLeB x y) true

theorem data_inj {a b : String} (h : a.data = b.data) : a = b := by
  cases a with
  | mk da =>
    cases b with
    | mk db => exact congrArg String.mk h

theorem lexLe_total : ∀ as bs : List Char, lexLe as bs = true ∨ lexLe bs as = true
  | [], _ => Or.inl rfl
  | _ :: _, [] => Or.inr rfl
  | a :: as, b :: bs => by
    simp only [lexLe]
    rcases lt_trichotomy a b with hab | hab | hab
    · left; simp [hab]
    · subst hab
      rcases lexLe_total as bs with h | h
      · left; simp [lt_irrefl, h]
      · right; simp [lt_irrefl, h]
    · right; simp [hab]

theorem lexLe_trans :
    ∀ as bs cs : List Char, lexLe as bs = true → lexLe bs cs = true → lexLe as cs = true
  | [], _, _, _, _ => rfl
  | _ :: _, [], _, h, _ => by simp [lexLe] at h
  | _ :: _, _ :: _, [], _, h => by simp [lexLe] at h
  | a :: as, b :: bs, c :: cs, h1, h2 => by
    simp only [lexLe] at h1 h2 ⊢
    rcases lt_trichotomy a b with hab | hab | hab
    · rcases lt_trichotomy b c with hbc | hbc | hbc
      · simp [lt_trans hab hbc]
      · subst hbc; simp [hab]
      · simp [not_lt_of_gt hbc, ne_of_gt hbc] at h2
    · subst hab
      rcases lt_trichotomy a c with hac | hac | hac
      · simp [hac]
      · subst hac
        simp only [lt_irrefl, if_neg (lt_irrefl a), if_pos rfl] at h1 h2 ⊢
        exact lexLe_trans as bs cs h1 h2
      · simp [not_lt_of_gt hac, ne_of_gt hac] at h2
    · simp [not_lt_of_gt hab, ne_of_gt hab] at h1

theorem lexLe_antisymm :
    ∀ as bs : List Char, lexLe as bs = true → lexLe bs as = true → as = bs
  | [], [], _, _ => rfl
  | [], _ :: _, _, h => by simp [lexLe] at h
  | _ :: _, [], h, _ => by simp [lexLe] at h
  | a :: as, b :: bs, h1, h2 => by
    simp only [lexLe] at h1 h2
    rcases lt_trichotomy a b with hab | hab | hab
    · simp [not_lt_of_gt hab, ne_of_gt hab] at h2
    · subst hab
      simp only [lt_irrefl, if_neg (lt_irrefl a), if_pos rfl] at h1 h2
      rw [lexLe_antisymm as bs h1 h2]
    · simp [not_lt_of_gt hab, ne_of_gt hab] at h1

theorem strLe_total (a b : String) : strLe a b = true ∨ strLe b a = true :=
  lexLe_total a.data b.data

theorem strLe_trans {a b c : String} (h1 : strLe a b = true) (h2 : strLe b c = true) :
    strLe a c = true :=
  lexLe_trans a.data b.data c.data h1 h2

theorem strLe_antisymm {a b : String} (h1 : strLe a b = true) (h2 : strLe b a = true) :
    a = b := by
  cases a with
  | mk da =>
    cases b with
    | mk db => exact congrArg String.mk (lexLe_antisymm da db h1 h2)

theorem lexLt_irrefl : ∀ as : List Char, lexLt as as = false
  | [] => rfl
  | a :: as => by simp [lexLt, lt_irrefl, lexLt_irrefl as]

theorem lexLt_trans :
    ∀ as bs cs : List Char, lexLt as bs = true → lexLt bs cs = true → lexLt as cs = true
  | [], [], _, h, _ => by simp [lexLt] at h
  | [], _ :: _, [], _, h => by simp [lexLt] at h
  | [], _ :: _, _ :: _, _, _ => rfl
  | _ :: _, [], _, h, _ => by simp [lexLt] at h
  | _ :: _, _ :: _, [], _, h => by simp [lexLt] at h
  | a :: as, b :: bs, c :: cs, h1, h2 => by
    simp only [lexLt] at h1 h2 ⊢
    rcases lt_trichotomy a b with hab | hab | hab
    · rcases lt_trichotomy b c with hbc | hbc | hbc
      · simp [lt_trans hab hbc]
      · subst hbc; simp [hab]
      · simp [not_lt_of_gt hbc, ne_of_gt hbc] at h2
    · subst hab
      rcases lt_trichotomy a c with hac | hac | hac
      · simp [hac]
      · subst hac
        simp only [lt_irrefl, if_neg (lt_irrefl a), if_pos rfl] at h1 h2 ⊢
        exact lexLt_trans as bs cs h1 h2
      · simp [not_lt_of_gt hac, ne_of_gt hac] at h2
    · simp [not_lt_of_gt hab, ne_of_gt hab] at h1

theorem lexLt_total_of_ne :
    ∀ as bs : List Char, as ≠ bs → lexLt as bs = true ∨ lexLt bs as = true
  | [], [], h => absurd rfl h
  | [], _ :: _, _ => Or.inl rfl
  | _ :: _, [], _ => Or.inr rfl
  | a :: as, b :: bs, h => by
    rcases lt_trichotomy a b with hab | hab | hab
    · left; simp [lexLt, hab]
    · subst hab
      have hne : as ≠ bs := fun e => h (by rw [e])
      rcases lexLt_total_of_ne as bs hne with h2 | h2
      · left; simp [lexLt, lt_irrefl, h2]
      · right; simp [lexLt, lt_irrefl, h2]
    · right; simp [lexLt, hab]

theorem segsLeB_total : ∀ x y : List String, segsLeB x y = true ∨ segsLeB y x = true
  | [], _ => Or.inl rfl
  | _ :: _, [] => Or.inr rfl
  | a :: as, b :: bs => by
    by_cases hab : a = b
    · subst hab
      rcases segsLeB_total as bs with h | h
      · left; simp [segsLeB, h]
      · right; simp [segsLeB, h]
    · have hba : ¬b = a := fun e => hab e.symm
      have hdne : a.data ≠ b.data := fun e => hab (data_inj e)
      rcases lexLt_total_of_ne a.data b.data hdne with h | h
      · left; simp [segsLeB, hab, strLt, h]
      · right; simp [segsLeB, hba, strLt, h]

theorem segsLeB_trans :
    ∀ x y z : List String, segsLeB x y = true → segsLeB y z = true → segsLeB x z = true
  | [], _, _, _, _ => rfl
  | _ :: _, [], _, h, _ => by simp [segsLeB] at h
  | _ :: _, _ :: _, [], _, h => by simp [segsLeB] at h
  | a :: as, b :: bs, c :: cs, h1, h2 => by
    simp only [segsLeB] at h1 h2 ⊢
    by_cases hab : a = b
    · subst hab
      by_cases hac : a = c
      · subst hac
        simp at h1 h2 ⊢
        exact segsLeB_trans as bs cs h1 h2
      · simp [hac] at h2 ⊢
        exact h2
    · by_cases hbc : b = c
      · subst hbc
        simp [hab] at h1 ⊢
        exact h1
      · simp [hab, hbc] at h1 h2
        by_cases hac : a = c
        · subst hac
          exfalso
          have hcontra := lexLt_trans a.data b.data a.data h1 h2
          rw [lexLt_irrefl] at hcontra
          exact absurd hcontra (by simp)
        · simp [hac]
          exact lexLt_trans a.data b.data c.data h1 h2

instance : IsTotal String partsLe :=
  ⟨fun a b => segsLeB_total (pyParts a) (pyParts b)⟩

instance : IsTrans String partsLe :=
  ⟨fun a b c => segsLeB_trans (pyParts a) (pyParts b) (pyParts c)⟩

instance : IsTotal (String × String) pairLe := by
  constructor
  rintro ⟨x1, x2⟩ ⟨y1, y2⟩
  simp only [pairLe, pairLeB]
  by_cases h : x1 = y1
  · subst h
    rcases strLe_total x2 y2 with h2 | h2
    · left; simp [h2]
    · right; simp [h2]
  · have h' : ¬y1 = x1 := fun e => h e.symm
    rcases strLe_total x1 y1 with h2 | h2
    · left; simp [h, h2]
    · right; simp [h', h2]

instance : IsTrans (String × String) pairLe := by
  constructor
  rintro ⟨x1, x2⟩ ⟨y1, y2⟩ ⟨z1, z2⟩ h1 h2
  simp only [pairLe, pairLeB] at h1 h2 ⊢
  by_cases hxy : x1 = y1
  · subst hxy
    by_cases hyz : x1 = z1
    · subst hyz
      simp at h1 h2 ⊢
      exact strLe_trans h1 h2
    · simp [hyz] at h1 h2 ⊢
      exact h2
  · by_cases hyz : y1 = z1
    · subst hyz
      simp [hxy] at h1 h2 ⊢
      exact h1
    · simp [hxy, hyz] at h1 h2
      by_cases hxz : x1 = z1
      · subst hxz
        exact absurd (strLe_antisymm h1 h2) hxy
      · simp [hxz]
        exact strLe_trans h1 h2

instance : IsAntisymm (String × String) pairLe := by
  constructor
  rintro ⟨x1, x2⟩ ⟨y1, y2⟩ h1 h2
  simp only [pairLe, pairLeB] at h1 h2
  by_cases hxy : x1 = y1
  · subst hxy
    simp at h1 h2
    rw [strLe_antisymm h1 h2]
  · have hyx : ¬y1 = x1 := fun e => hxy e.symm
    simp [hxy, hyx] at h1 h2
    exact absurd (strLe_antisymm h1 h2) hxy

/-! ### MD5 (RFC 1321) over byte lists, and UTF-8 encoding

Embeds `hashlib.md5(...).hexdigest()` and `str.encode()`. -/

def u32 (n : Nat) : Nat := n % 4294967296

def u32mask : Nat := 4294967295

def rotl (x c : Nat) : Nat := u32 (x <<< c) ||| (x >>> (32 - c))

def md5K : List Nat :=
  [0xd76aa478, 0xe8c7b756, 0x242070db, 0xc1bdceee,
   0xf57c0faf, 0x4787c62a, 0xa8304613, 0xfd469501,
   0x698098d8, 0x8b44f7af, 0xffff5bb1, 0x895cd7be,
   0x6b901122, 0xfd987193, 0xa679438e, 0x49b40821,
   0xf61e2562, 0xc040b340, 0x265e5a51, 0xe9b6c7aa,
   0xd62f105d, 0x02441453, 0xd8a1e681, 0xe7d3fbc8,
   0x21e1cde6, 0xc33707d6, 0xf4d50d87, 0x455a14ed,
   0xa9e3e905, 0xfcefa3f8, 0x676f02d9, 0x8d2a4c8a,
   0xfffa3942, 0x8771f681, 0x6d9d6122, 0xfde5380c,
   0xa4beea44, 0x4bdecfa9, 0xf6bb4b60, 0xbebfbc70,
   0x289b7ec6, 0xeaa127fa, 0xd4ef3085, 0x04881d05,
   0xd9d4d039, 0xe6db99e5, 0x1fa27cf8, 0xc4ac5665,
   0xf4292244, 0x432aff97, 0xab9423a7, 0xfc93a039,
   0x655b59c3, 0x8f0ccc92, 0xffeff47d, 0x85845dd1,
   0x6fa87e4f, 0xfe2ce6e0, 0xa3014314, 0x4e0811a1,
   0xf7537e82, 0xbd3af235, 0x2ad7d2bb, 0xeb86d391]

def md5S : List Nat :=
  [7, 12, 17, 22, 7, 12, 17, 22, 7, 12, 17, 22, 7, 12, 17, 22,
   5, 9, 14, 20, 5, 9, 14, 20, 5, 9, 14, 20, 5, 9, 14, 20,
   4, 11, 16, 23, 4, 11, 16, 23, 4, 11, 16, 23, 4, 11, 16, 23,
   6, 10, 15, 21, 6, 10, 15, 21, 6, 10, 15, 21, 6, 10, 15, 21]

def md5F (i b c d : Nat) : Nat :=
  if i < 16 then (b &&& c) ||| ((b ^^^ u32mask) &&& d)
  else if i < 32 then (d &&& b) ||| ((d ^^^ u32mask) &&& c)
  else if i < 48 then b ^^^ c ^^^ d
  else c ^^^ (b ||| (d ^^^ u32mask))

def md5G (i : Nat) : Nat :=
  if i < 16 then i
  else if i < 32 then (5 * i + 1) % 16
  else if i < 48 then (3 * i + 5) % 16
  else (7 * i) % 16

def md5Round (M : List Nat) (st : Nat × Nat × Nat × Nat) (i : Nat) :
    Nat × Nat × Nat × Nat :=
  match st with
  | (a, b, c, d) =>
    let f := u32 (a + md5F i b c d + md5K.getD i 0 + M.getD (md5G i) 0)
    (d, u32 (b + rotl f (md5S.getD i 0)), b, c)

def leWord (bs : List Nat) (i : Nat) : Nat :=
  bs.getD (4 * i) 0 + 256 * bs.getD (4 * i + 1) 0 + 65536 * bs.getD (4 * i + 2) 0 +
    16777216 * bs.getD (4 * i + 3) 0

def md5Block (st0 : Nat × Nat × Nat × Nat) (block : List Nat) :
    Nat × Nat × Nat × Nat :=
  let M := (List.range 16).map (leWord block)
  match (List.range 64).foldl (md5Round M) st0, st0 with
  | (a, b, c, d), (a0, b0, c0, d0) =>
    (u32 (a0 + a), u32 (b0 + b), u32 (c0 + c), u32 (d0 + d))

def leBytes (k n : Nat) : List Nat := (List.range k).map (fun i => (n >>> (8 * i)) % 256)

def md5Pad (msg : List Nat) : List Nat :=
  msg ++ 128 :: List.replicate ((119 - msg.length % 64) % 64) 0 ++
    leBytes 8 (msg.length * 8)

def md5Bytes (msg : List Nat) : List Nat :=
  let padded := md5Pad msg
  match ((List.range (padded.length / 64)).map
      (fun i => (padded.drop (64 * i)).take 64)).foldl md5Block
      (0x67452301, 0xefcdab89, 0x98badcfe, 0x10325476) with
  | (a, b, c, d) => leBytes 4 a ++ leBytes 4 b ++ leBytes 4 c ++ leBytes 4 d

def hexChar (n : Nat) : Char :=
  if n < 10 then Char.ofNat (48 + n) else Char.ofNat (87 + n)

def md5Hex (msg : List Nat) : String :=
  ⟨(md5Bytes msg).flatMap (fun b => [hexChar (b / 16), hexChar (b % 16)])⟩

/-- UTF-8 encoding of one character (Python `str.encode()` works per code
point). -/
def utf8Bytes (c : Char) : List Nat :=
  let n := c.toNat
  if n < 128 then [n]
  else if n < 2048 then [192 + n / 64, 128 + n % 64]
  else if n < 65536 then [224 + n / 4096, 128 + (n / 64) % 64, 128 + n % 64]
  else [240 + n / 262144, 128 + (n / 4096) % 64, 128 + (n / 64) % 64, 128 + n % 64]

def strBytes (s : String) : List Nat := s.data.flatMap utf8Bytes

/-- Validation of the MD5 embedding against the digest asserted in
`test_cartographer.py` (`md5(b"test content") =
9473fdd0d880a43c21b7778d34872157`). -/
theorem md5_test_content :
    md5Hex (strBytes "test content") = "9473fdd0d880a43c21b7778d34872157" := by
  decide

/-- Validation of the MD5 embedding on the standard empty-input vector. -/
theorem md5_empty_input : md5Hex [] = "d41d8cd98f00b204e9800998ecf8427e" := by
  decide

/-! ### Pattern compiler (`PatternMatcher.__init__`, cartographer.py lines 48-74)

The source builds, per pattern, a regex string by `re.escape` followed by four
sequential `str.replace` passes, then appends `.*` for a trailing `/`, anchors
with `^` (dropping the leading escaped `/`) for a leading `/`, and otherwise
prefixes `(?:^|.*/)`.  `re.escape` turns every character into a literal, and
only `*` produces `\*` in the escaped text, only `/` stays `/`; none of the
replacement texts contains `\`, so the four passes act exactly as
left-to-right non-overlapping token replacements of `**/`, `**`, `*`, `?` in
the escaped pattern.  We therefore compile to a token list:

* `lit c`    — an escaped literal character;
* `segStar`  — `(?:.*/)?` (from `**/`);
* `dotStar`  — `.*` (from `**`, and the trailing-`/` suffix);
* `notSlashStar` — `[^/]*` (from `*`);
* `anyChar`  — `.` (from `?`).

`segStarIn` is an internal state of the matcher only (inside the `.*/` branch
of `(?:.*/)?`, a `/` not yet consumed); `compiledFrag` never emits it.
Matching follows Python `re` semantics: `.` matches any character except a
newline, `[^/]` matches any character except `/`. -/

inductive GTok where
  | lit (c : Char)
  | anyChar
  | dotStar
  | notSlashStar
  | segStar
  | segStarIn
deriving DecidableEq

/-- One left-to-right non-overlapping replacement pass for a 1-token needle
(Python `str.replace`). -/
def rep1 (a r : GTok) : List GTok → List GTok
  | [] => []
  | x :: xs => (if x = a then r else x) :: rep1 a r xs

/-- One left-to-right non-overlapping replacement pass for a 2-token needle. -/
def rep2 (a b r : GTok) : List GTok → List GTok
  | x :: y :: rest =>
    if x = a ∧ y = b then r :: rep2 a b r rest else x :: rep2 a b r (y :: rest)
  | l => l

/-- One left-to-right non-overlapping replacement pass for a 3-token needle. -/
def rep3 (a b c r : GTok) : List GTok → List GTok
  | x :: y :: z :: rest =>
    if x = a ∧ y = b ∧ z = c then r :: rep3 a b c r rest
    else x :: rep3 a b c r (y :: z :: rest)
  | l => l

/-- Fuelled matcher: does the token sequence match exactly the given character
list?  Every recursive step decreases `2 * tokens + chars`, so the fuel given
by `tokensMatch` is never exhausted; fuel only makes the recursion
structural. -/
def tmFuel : Nat → List GTok → List Char → Bool
  | 0, _, _ => false
  | _ + 1, [], cs => cs.isEmpty
  | f + 1, .lit c :: ts, cs =>
    match cs with
    | [] => false
    | x :: xs => c = x && tmFuel f ts xs
  | f + 1, .anyChar :: ts, cs =>
    match cs with
    | [] => false
    | x :: xs => x ≠ '\n' && tmFuel f ts xs
  | f + 1, .dotStar :: ts, cs =>
    tmFuel f ts cs ||
      match cs with
      | [] => false
      | x :: xs => x ≠ '\n' && tmFuel f (.dotStar :: ts) xs
  | f + 1, .notSlashStar :: ts, cs =>
    tmFuel f ts cs ||
      match cs with
      | [] => false
      | x :: xs => x ≠ '/' && tmFuel f (.notSlashStar :: ts) xs
  | f + 1, .segStar :: ts, cs => tmFuel f ts cs || tmFuel f (.segStarIn :: ts) cs
  | f + 1, .segStarIn :: ts, cs =>
    match cs with
    | [] => false
    | x :: xs => (x = '/' && tmFuel f ts xs) || (x ≠ '\n' && tmFuel f (.segStarIn :: ts) xs)

def tokensMatch (ts : List GTok) (cs : List Char) : Bool :=
  tmFuel (2 * ts.length + cs.length + 1) ts cs

/-- The compiled fragment of one pattern: `re.escape` (everything literal),
the four replacement passes in source order, and the trailing-`/` rule
(cartographer.py lines 56-63). -/
def compiledFrag (pattern : String) : List GTok :=
  let reg := pattern.data.map GTok.lit
  let reg := rep3 (.lit '*') (.lit '*') (.lit '/') .segStar reg
  let reg := rep2 (.lit '*') (.lit '*') .dotStar reg
  let reg := rep1 (.lit '*') .notSlashStar reg
  let reg := rep1 (.lit '?') .anyChar reg
  if strEndsWith pattern "/" then reg ++ [.dotStar] else reg

/-- The suffixes of `cs` that start immediately after a `/`.  `re.search` on
`(?:^|.*/)frag$` succeeds iff `frag` matches the whole path or one of these
suffixes: the `.*/` branch started at position `i` consumes up to any later
`/` (taking `i` to be that slash position makes the `.*` part empty, so the
newline restriction of `.*` never cuts anything). -/
def afterSlashSuffixes : List Char → List (List Char)
  | [] => []
  | c :: cs => if c = '/' then cs :: afterSlashSuffixes cs else afterSlashSuffixes cs

/-- Matching one pattern against a path (one alternative `(?:reg$)` of the
combined regex, under `re.search`).  A pattern starting with `/` is compiled
to `^` + fragment-without-its-leading-`/`-literal (source line 66: `reg =
'^' + reg[1:]`, and the leading `/` of the pattern always survives the
replacement passes as the single character `/`), so it matches only the whole
path. -/
def patMatchOne (pattern : String) (pathChars : List Char) : Bool :=
  let frag := compiledFrag pattern
  if strStartsWith pattern "/" then tokensMatch frag.tail pathChars
  else tokensMatch frag pathChars || (afterSlashSuffixes pathChars).any (tokensMatch frag)

/-- `PatternMatcher` keeps its pattern list; an empty list compiles to no
regex and `matches` then returns `False` (source lines 49-51, 78-79). -/
structure PatternMatcher where
  patterns : List String

def PatternMatcher.matches (m : PatternMatcher) (path : String) : Bool :=
  if m.patterns.isEmpty then false
  else m.patterns.any (fun p => patMatchOne p path.data)

/-! ### Filesystem model and `select_files` (cartographer.py lines 83-128)

A filesystem is a finite list of files, each a nonempty list of path
segments (directory names, then the file name).  `os.walk` with the in-place
pruning `dirnames[:] = [d for d in dirnames if not d.startswith(".")]`
discovers exactly the files none of whose ancestor directories is hidden;
file names themselves are never pruned.  For each discovered file the source
forms `os.path.join(rel_dir, filename)` — the `/`-join of the segments —
then `.replace("\\", "/")` and the `"./"` strip, matches the three matchers
and the exception set, and finally sorts the selected `root / rel_path`
values, which under a common root orders the relative paths by their
component sequences (`partsLe`). -/

def visibleFile (segs : List String) : Bool :=
  segs.dropLast.all (fun d => !strStartsWith d ".")

def walkRelPaths (fs : List (List String)) : List String :=
  (fs.filter visibleFile).map joinSegs

/-- The per-file decision of `select_files` (lines 114-126): an ignore match
always excludes; an exclude match excludes unless the path is an exception;
the file is selected iff the include matcher matches or the path is an
exception. -/
def fileKept (gitignore_matcher exclude_matcher include_matcher : PatternMatcher)
    (exception_set : List String) (rel_path : String) : Bool :=
  if gitignore_matcher.matches rel_path then false
  else if exclude_matcher.matches rel_path && !hasElem exception_set rel_path then false
  else include_matcher.matches rel_path || hasElem exception_set rel_path

def select_files (fs : List (List String))
    (include_patterns exclude_patterns exceptions gitignore_patterns : List String) :
    List String :=
  let include_matcher := PatternMatcher.mk include_patterns
  let exclude_matcher := PatternMatcher.mk exclude_patterns
  let gitignore_matcher := PatternMatcher.mk gitignore_patterns
  let candidates := (walkRelPaths fs).map (fun s => stripDotSlash (toSlash s))
  List.insertionSort partsLe
    (candidates.filter (fileKept gitignore_matcher exclude_matcher include_matcher exceptions))

/-! ### Hashing (cartographer.py lines 131-172) -/

/-- `compute_file_hash`: the file content is `none` on a read failure
(`IOError`/`OSError` caught, sentinel `""` returned); otherwise the bytes are
consumed in 8192-byte chunks (`iter(lambda: f.read(8192), b"")` yields
`⌈len/8192⌉` consecutive chunks) fed to one MD5 state, which is hashing their
concatenation. -/
def compute_file_hash (content : Option (List Nat)) : String :=
  match content with
  | none => ""
  | some bytes =>
    md5Hex (((List.range ((bytes.length + 8191) / 8192)).map
      (fun i => (bytes.drop (8192 * i)).take 8192)).flatten)

/-- The membership test of `compute_folder_hash` (line 149):
`path.startswith(folder + "/") or (folder == "." and "/" not in path)`. -/
def folderPred (folder : String) (pr : String × String) : Bool :=
  strStartsWith pr.1 (folder ++ "/") || (folder == "." && !hasChar pr.1.data '/')

/-- `compute_folder_hash` (lines 143-159): select the `(path, hash)` pairs of
the map that lie in the folder, sort them (Python tuple order), return `""`
if none qualify, else the MD5 of the concatenation of `f"{path}:{hash}\n"`
encodings. -/
def compute_folder_hash (folder : String) (file_hashes : List (String × String)) : String :=
  let folder_files := List.insertionSort pairLe (file_hashes.filter (folderPred folder))
  if folder_files.isEmpty then ""
  else md5Hex ((folder_files.map (fun pr => strBytes (pr.1 ++ ":" ++ pr.2 ++ "\n"))).flatten)

/-- Keep-first deduplication, modelling accumulation into a Python `set`
(considered up to membership). -/
def dedupFirst (seen : List String) : List String → List String
  | [] => []
  | x :: xs => if hasElem seen x then dedupFirst seen xs else x :: dedupFirst (x :: seen) xs

/-- The cumulative `"/".join(parts[:i+1])` prefixes of the ancestor
directories `Path(path).parts[:-1]` of a path (lines 167-170 and 357-360). -/
def ancestorJoins (p : String) : List String :=
  let parts := (pyParts p).dropLast
  (List.range parts.length).map (fun i => joinSegs (parts.take (i + 1)))

/-- `get_folders_with_files` (lines 162-172): every ancestor-directory prefix
of every selected file, plus `"."` for the root. -/
def get_folders_with_files (files : List String) : List String :=
  dedupFirst [] (files.flatMap ancestorJoins ++ ["."])

/-! ### Change detection (`cmd_changes`, cartographer.py lines 328-334 and
356-361) -/

def keysOf (m : List (String × String)) : List String := m.map Prod.fst

def lookupStr : List (String × String) → String → Option String
  | [], _ => none
  | (k, v) :: rest, key => if k = key then some v else lookupStr rest key

/-- `added = set(current.keys()) - set(saved.keys())` (line 328), as a list up
to membership. -/
def changes_added (saved current : List (String × String)) : List String :=
  (keysOf current).filter (fun k => !hasElem (keysOf saved) k)

/-- `removed = set(saved.keys()) - set(current.keys())` (line 329). -/
def changes_removed (saved current : List (String × String)) : List String :=
  (keysOf saved).filter (fun k => !hasElem (keysOf current) k)

/-- `modified = {path for path in current.keys() & saved.keys() if
current[path] != saved[path]}` (lines 330-334). -/
def changes_modified (saved current : List (String × String)) : List String :=
  (keysOf current).filter
    (fun k => hasElem (keysOf saved) k && decide (lookupStr current k ≠ lookupStr saved k))

/-- `affected_folders` (lines 356-361): for every changed path, all cumulative
ancestor prefixes plus `"."`, accumulated into a set. -/
def changes_affected (saved current : List (String × String)) : List String :=
  dedupFirst []
    ((changes_added saved current ++ changes_removed saved current ++
        changes_modified saved current).flatMap (fun p => ancestorJoins p ++ ["."]))

/-! ### `cmd_update` (cartographer.py lines 370-412)

The stored state is the parsed snapshot JSON.  `load_state` returning `None`
(no file, or corrupt) is `none` here, and `cmd_update` then prints an error
and returns 1.  Otherwise it re-selects with the include/exclude/exception
lists stored in the snapshot metadata, recomputes both hash maps from the
live filesystem (`readFile` is the content oracle; `none` = unreadable),
overwrites `last_run` and the two maps in place, saves, and returns 0. -/

structure CartMetadata where
  version : String
  last_run : String
  root : String
  include_patterns : List String
  exclude_patterns : List String
  exceptions : List String
deriving DecidableEq

structure CartState where
  metadata : CartMetadata
  file_hashes : List (String × String)
  folder_hashes : List (String × String)
deriving DecidableEq

def cmd_update (loaded : Option CartState) (fs : List (List String))
    (readFile : String → Option (List Nat)) (gitignore_patterns : List String)
    (now : String) : Option CartState × Nat :=
  match loaded with
  | none => (none, 1)
  | some state =>
    let include_patterns := state.metadata.include_patterns
    let exclude_patterns := state.metadata.exclude_patterns
    let exceptions := state.metadata.exceptions
    let selected_files :=
      select_files fs include_patterns exclude_patterns exceptions gitignore_patterns
    let file_hashes := selected_files.map (fun p => (p, compute_file_hash (readFile p)))
    let folders := get_folders_with_files selected_files
    let folder_hashes := folders.map (fun folder => (folder, compute_folder_hash folder file_hashes))
    (some { state with
              metadata := { state.metadata with last_run := now },
              file_hashes := file_hashes,
              folder_hashes := folder_hashes }, 0)

/-! ### Filesystem well-formedness

A real directory tree satisfies: every name is nonempty, is not `.`, and
contains no `/`; distinct files have distinct segment lists (sibling entries
have distinct names).  `nameOk` additionally requires that names contain no
backslash — POSIX allows `\` in file names, and `select_files` then rewrites
it to `/` (line 110), which is exactly the corner the duplicate-freedom claim
trips over. -/

def nameOk (n : String) : Bool :=
  decide (n ≠ "") && decide (n ≠ ".") && !hasChar n.data '/' && !hasChar n.data '\\'

def fileOk (segs : List String) : Bool := !segs.isEmpty && segs.all nameOk

def nodupB : List (List String) → Bool
  | [] => true
  | x :: xs => !hasElem xs x && nodupB xs

def fsOk (fs : List (List String)) : Bool := fs.all fileOk && nodupB fs

/-! ### Helper lemmas -/

theorem hasElem_iff {α : Type} [DecidableEq α] :
    ∀ (l : List α) (a : α), hasElem l a = true ↔ a ∈ l
  | [], a => by simp [hasElem]
  | x :: xs, a => by
    simp only [hasElem]
    by_cases h : x = a
    · subst h; simp
    · have h' : ¬a = x := fun e => h e.symm
      simp [h, h', hasElem_iff xs a]

theorem hasChar_iff : ∀ (l : List Char) (c : Char), hasChar l c = true ↔ c ∈ l
  | [], c => by simp [hasChar]
  | x :: xs, c => by
    simp only [hasChar]
    by_cases h : x = c
    · subst h; simp
    · have h' : ¬c = x := fun e => h e.symm
      simp [h, h', hasChar_iff xs c]

theorem hasElem_false_iff {α : Type} [DecidableEq α] (l : List α) (a : α) :
    hasElem l a = false ↔ a ∉ l := by
  constructor
  · intro h m
    rw [(hasElem_iff l a).2 m] at h
    exact absurd h (by simp)
  · intro h
    cases hh : hasElem l a
    · rfl
    · exact absurd ((hasElem_iff l a).1 hh) h

theorem nodupB_iff : ∀ l : List (List String), nodupB l = true ↔ l.Nodup
  | [] => by simp [nodupB]
  | x :: xs => by
    simp only [nodupB, List.nodup_cons, Bool.and_eq_true, Bool.not_eq_true',
      nodupB_iff xs]
    constructor
    · rintro ⟨h1, h2⟩
      exact ⟨fun m => by rw [(hasElem_iff xs x).2 m] at h1; exact absurd h1 (by simp), h2⟩
    · rintro ⟨h1, h2⟩
      refine ⟨?_, h2⟩
      cases h : hasElem xs x
      · rfl
      · exact absurd ((hasElem_iff xs x).1 h) h1

theorem mem_dedupFirst :
    ∀ (l seen : List String) (x : String),
      x ∈ dedupFirst seen l ↔ x ∈ l ∧ x ∉ seen
  | [], seen, x => by simp [dedupFirst]
  | y :: ys, seen, x => by
    simp only [dedupFirst]
    by_cases h : hasElem seen y = true
    · rw [if_pos h, mem_dedupFirst ys seen x]
      have hy : y ∈ seen := (hasElem_iff seen y).1 h
      constructor
      · exact fun ⟨h1, h2⟩ => ⟨List.mem_cons_of_mem _ h1, h2⟩
      · rintro ⟨h1, h2⟩
        rcases List.mem_cons.1 h1 with h1 | h1
        · exact absurd (h1 ▸ hy) h2
        · exact ⟨h1, h2⟩
    · rw [if_neg h]
      have hy : y ∉ seen := fun m => h ((hasElem_iff seen y).2 m)
      constructor
      · intro hm
        rcases List.mem_cons.1 hm with h1 | h1
        · exact ⟨h1 ▸ List.mem_cons_self y ys, h1 ▸ hy⟩
        · have := (mem_dedupFirst ys (y :: seen) x).1 h1
          exact ⟨List.mem_cons_of_mem _ this.1,
            fun m => this.2 (List.mem_cons_of_mem _ m)⟩
      · rintro ⟨h1, h2⟩
        rcases List.mem_cons.1 h1 with h1 | h1
        · exact h1 ▸ List.mem_cons_self y _
        · by_cases hxy : x = y
          · exact hxy ▸ List.mem_cons_self y _
          · exact List.mem_cons_of_mem _ ((mem_dedupFirst ys (y :: seen) x).2
              ⟨h1, fun m => (List.mem_cons.1 m).elim hxy h2⟩)

theorem mem_afterSlashSuffixes :
    ∀ (cs s : List Char), s ∈ afterSlashSuffixes cs ↔ ∃ pre, cs = pre ++ '/' :: s
  | [], s => by
    simp only [afterSlashSuffixes, List.not_mem_nil, false_iff, not_exists]
    intro pre h
    exact absurd h.symm (List.append_ne_nil_of_right_ne_nil pre (by simp))
  | c :: cs, s => by
    simp only [afterSlashSuffixes]
    by_cases h : c = '/'
    · subst h
      rw [if_pos rfl]
      constructor
      · intro hm
        rcases List.mem_cons.1 hm with h1 | h1
        · exact ⟨[], by rw [h1]; rfl⟩
        · obtain ⟨pre, hp⟩ := (mem_afterSlashSuffixes cs s).1 h1
          exact ⟨'/' :: pre, by rw [hp]; rfl⟩
      · rintro ⟨pre, hp⟩
        cases pre with
        | nil =>
          injection hp with _ h2
          exact h2 ▸ List.mem_cons_self _ _
        | cons p pr =>
          injection hp with _ h2
          exact List.mem_cons_of_mem _ ((mem_afterSlashSuffixes cs s).2 ⟨pr, h2⟩)
    · rw [if_neg h, mem_afterSlashSuffixes cs s]
      constructor
      · rintro ⟨pre, hp⟩
        exact ⟨c :: pre, by rw [hp]; rfl⟩
      · rintro ⟨pre, hp⟩
        cases pre with
        | nil => injection hp with h1; exact absurd h1 h
        | cons p pr =>
          injection hp with _ h2
          exact ⟨pr, h2⟩

theorem data_append (a b : String) : (a ++ b).data = a.data ++ b.data := rfl

theorem sep_inj :
    ∀ (as bs xs ys : List Char), '/' ∉ as → '/' ∉ bs →
      as ++ '/' :: xs = bs ++ '/' :: ys → as = bs ∧ xs = ys
  | [], [], xs, ys, _, _, h => by simpa using h
  | [], b :: bs, xs, ys, _, hb, h => by
    injection h with h1 h2
    subst h1
    exact absurd (List.mem_cons_self _ _) hb
  | a :: as, [], xs, ys, ha, _, h => by
    injection h with h1 h2
    subst h1
    exact absurd (List.mem_cons_self _ _) ha
  | a :: as, b :: bs, xs, ys, ha, hb, h => by
    injection h with h1 h2
    subst h1
    obtain ⟨e1, e2⟩ := sep_inj as bs xs ys
      (fun m => ha (List.mem_cons_of_mem _ m))
      (fun m => hb (List.mem_cons_of_mem _ m)) h2
    exact ⟨by rw [e1], e2⟩

theorem nameOk_props {n : String} (h : nameOk n = true) :
    n ≠ "" ∧ n ≠ "." ∧ '/' ∉ n.data ∧ '\\' ∉ n.data := by
  simp only [nameOk, Bool.and_eq_true, decide_eq_true_eq, Bool.not_eq_true'] at h
  refine ⟨h.1.1.1, h.1.1.2, ?_, ?_⟩
  · intro m; rw [(hasChar_iff n.data '/').2 m] at h; exact absurd h.1.2 (by simp)
  · intro m; rw [(hasChar_iff n.data '\\').2 m] at h; exact absurd h.2 (by simp)

theorem joinSegs_cons2 (x y : String) (r : List String) :
    joinSegs (x :: y :: r) = x ++ "/" ++ joinSegs (y :: r) := rfl

theorem data_joinSegs_cons2 (x y : String) (r : List String) :
    (joinSegs (x :: y :: r)).data = x.data ++ '/' :: (joinSegs (y :: r)).data := by
  rw [joinSegs_cons2, data_append, data_append, List.append_assoc]
  rfl

theorem join_chars :
    ∀ (segs : List String) (c : Char), c ∈ (joinSegs segs).data →
      c = '/' ∨ ∃ n ∈ segs, c ∈ n.data
  | [], c, h => by simp [joinSegs] at h
  | [x], c, h => Or.inr ⟨x, List.mem_singleton.2 rfl, h⟩
  | x :: y :: r, c, h => by
    rw [data_joinSegs_cons2] at h
    rcases List.mem_append.1 h with h | h
    · exact Or.inr ⟨x, List.mem_cons_self _ _, h⟩
    · rcases List.mem_cons.1 h with h | h
      · exact Or.inl h
      · rcases join_chars (y :: r) c h with h | ⟨n, hn, hc⟩
        · exact Or.inl h
        · exact Or.inr ⟨n, List.mem_cons_of_mem _ hn, hc⟩

theorem joinSegs_inj :
    ∀ (s1 s2 : List String),
      (∀ n ∈ s1, nameOk n = true) → (∀ n ∈ s2, nameOk n = true) →
      s1 ≠ [] → s2 ≠ [] → joinSegs s1 = joinSegs s2 → s1 = s2
  | [], _, _, _, h, _, _ => absurd rfl h
  | _ :: _, [], _, _, _, h, _ => absurd rfl h
  | [x], [y], _, _, _, _, h => by rw [show joinSegs [x] = x from rfl, show joinSegs [y] = y from rfl] at h; rw [h]
  | [x], y :: z :: r, h1, _, _, _, h => by
    have hd : x.data = y.data ++ '/' :: (joinSegs (z :: r)).data := by
      rw [show joinSegs [x] = x from rfl] at h
      rw [h, data_joinSegs_cons2]
    have : '/' ∈ x.data := by rw [hd]; exact List.mem_append.2 (Or.inr (List.mem_cons_self _ _))
    exact absurd this (nameOk_props (h1 x (List.mem_singleton.2 rfl))).2.2.1
  | x :: z :: r, [y], _, h2, _, _, h => by
    have hd : y.data = x.data ++ '/' :: (joinSegs (z :: r)).data := by
      rw [show joinSegs [y] = y from rfl] at h
      rw [← h, data_joinSegs_cons2]
    have : '/' ∈ y.data := by rw [hd]; exact List.mem_append.2 (Or.inr (List.mem_cons_self _ _))
    exact absurd this (nameOk_props (h2 y (List.mem_singleton.2 rfl))).2.2.1
  | x :: x2 :: xr, y :: y2 :: yr, h1, h2, _, _, h => by
    have hd : x.data ++ '/' :: (joinSegs (x2 :: xr)).data =
        y.data ++ '/' :: (joinSegs (y2 :: yr)).data := by
      rw [← data_joinSegs_cons2, ← data_joinSegs_cons2, h]
    obtain ⟨e1, e2⟩ := sep_inj x.data y.data _ _
      (nameOk_props (h1 x (List.mem_cons_self _ _))).2.2.1
      (nameOk_props (h2 y (List.mem_cons_self _ _))).2.2.1 hd
    have ex : x = y := data_inj e1
    have er : x2 :: xr = y2 :: yr :=
      joinSegs_inj (x2 :: xr) (y2 :: yr)
        (fun n hn => h1 n (List.mem_cons_of_mem _ hn))
        (fun n hn => h2 n (List.mem_cons_of_mem _ hn))
        (by simp) (by simp) (data_inj e2)
    rw [ex, er]

theorem andE {a b : Bool} (h : (a && b) = true) : a = true ∧ b = true := by
  simp only [Bool.and_eq_true] at h
  exact h

theorem fileOk_props {segs : List String} (h : fileOk segs = true) :
    segs ≠ [] ∧ ∀ n ∈ segs, nameOk n = true := by
  obtain ⟨h1, h2⟩ := andE h
  constructor
  · intro e
    rw [e] at h1
    exact absurd h1 (by simp)
  · exact fun n hn => List.all_eq_true.1 h2 n hn

theorem join_not_dotSlash :
    ∀ (segs : List String), (∀ n ∈ segs, nameOk n = true) → segs ≠ [] →
      strStartsWith (joinSegs segs) "./" = false
  | [], _, hne => absurd rfl hne
  | [n], h, _ => by
    have hn := nameOk_props (h n (List.mem_singleton.2 rfl))
    cases hp : strStartsWith (joinSegs [n]) "./" with
    | false => rfl
    | true =>
      exfalso
      obtain ⟨t, ht⟩ := List.isPrefixOf_iff_prefix.1 hp
      have ht2 : ('.' : Char) :: '/' :: t = n.data := ht
      exact hn.2.2.1 (by rw [← ht2]; exact List.mem_cons_of_mem _ (List.mem_cons_self _ _))
  | n :: m :: r, h, _ => by
    have hn := nameOk_props (h n (List.mem_cons_self _ _))
    cases hp : strStartsWith (joinSegs (n :: m :: r)) "./" with
    | false => rfl
    | true =>
      exfalso
      obtain ⟨t, ht⟩ := List.isPrefixOf_iff_prefix.1 hp
      rw [data_joinSegs_cons2] at ht
      have ht2 : ('.' : Char) :: '/' :: t =
          n.data ++ '/' :: (joinSegs (m :: r)).data := ht
      rcases hd : n.data with _ | ⟨c1, rest1⟩
      · exact hn.1 (data_inj hd)
      · rcases hd2 : rest1 with _ | ⟨c2, rest2⟩
        · rw [hd, hd2] at ht2
          injection ht2 with e1 _
          have : n = "." := data_inj (by rw [hd, hd2, ← e1])
          exact hn.2.1 this
        · rw [hd, hd2] at ht2
          injection ht2 with e1 e2
          injection e2 with e2 _
          refine hn.2.2.1 ?_
          rw [hd, hd2, ← e2]
          exact List.mem_cons_of_mem _ (List.mem_cons_self _ _)

theorem toSlash_id {s : String} (h : '\\' ∉ s.data) : toSlash s = s := by
  apply data_inj
  show s.data.map (fun c => if c = '\\' then '/' else c) = s.data
  have he : ∀ c ∈ s.data, (if c = '\\' then '/' else c) = c := fun c hc =>
    if_neg (fun e => h (by rw [← e]; exact hc))
  rw [List.map_congr_left he]
  simp

theorem stripDotSlash_id {s : String} (h : strStartsWith s "./" = false) :
    stripDotSlash s = s := by
  simp [stripDotSlash, h]

theorem strip_toSlash_join {segs : List String} (h : fileOk segs = true) :
    stripDotSlash (toSlash (joinSegs segs)) = joinSegs segs := by
  obtain ⟨hne, hall⟩ := fileOk_props h
  have hnob : '\\' ∉ (joinSegs segs).data := by
    intro m
    rcases join_chars segs '\\' m with e | ⟨n, hn, hc⟩
    · exact absurd e (by decide)
    · exact (nameOk_props (hall n hn)).2.2.2 hc
  rw [toSlash_id hnob, stripDotSlash_id (join_not_dotSlash segs hall hne)]

theorem map_strip_walk (fs : List (List String))
    (hok : ∀ segs ∈ fs, fileOk segs = true) :
    (walkRelPaths fs).map (fun s => stripDotSlash (toSlash s)) = walkRelPaths fs := by
  unfold walkRelPaths
  rw [List.map_map]
  exact List.map_congr_left (fun segs hsegs =>
    strip_toSlash_join (hok segs (List.mem_filter.1 hsegs).1))

theorem walk_nodup (fs : List (List String)) (h : fsOk fs = true) :
    (walkRelPaths fs).Nodup := by
  have hok : ∀ segs ∈ fs, fileOk segs = true := fun segs hs =>
    List.all_eq_true.1 (andE h).1 segs hs
  have hnd : fs.Nodup := (nodupB_iff fs).1 (andE h).2
  unfold walkRelPaths
  refine List.Nodup.map_on ?_ (hnd.filter _)
  intro x hx y hy e
  obtain ⟨hxne, hxall⟩ := fileOk_props (hok x (List.mem_filter.1 hx).1)
  obtain ⟨hyne, hyall⟩ := fileOk_props (hok y (List.mem_filter.1 hy).1)
  exact joinSegs_inj x y hxall hyall hxne hyne e

theorem folderHash_congr (folder : String) (M1 M2 : List (String × String))
    (h : (M1.filter (folderPred folder)).Perm (M2.filter (folderPred folder))) :
    compute_folder_hash folder M1 = compute_folder_hash folder M2 := by
  unfold compute_folder_hash
  have e : List.insertionSort pairLe (M1.filter (folderPred folder)) =
      List.insertionSort pairLe (M2.filter (folderPred folder)) :=
    List.eq_of_perm_of_sorted
      (((List.perm_insertionSort pairLe _).trans h).trans
        (List.perm_insertionSort pairLe _).symm)
      (List.sorted_insertionSort pairLe _) (List.sorted_insertionSort pairLe _)
  rw [e]

theorem chunks_flatten :
    ∀ (m : Nat) (l : List Nat), l.length ≤ 8192 * m →
      ((List.range m).map (fun i => (l.drop (8192 * i)).take 8192)).flatten = l
  | 0, l, h => by
    have : l = [] := List.eq_nil_of_length_eq_zero (Nat.le_zero.1 (by simpa using h))
    simp [this]
  | m + 1, l, h => by
    rw [List.range_succ_eq_map, List.map_cons, List.map_map, List.flatten_cons]
    have he : ((List.range m).map ((fun i => (l.drop (8192 * i)).take 8192) ∘ Nat.succ)) =
        (List.range m).map (fun i => ((l.drop 8192).drop (8192 * i)).take 8192) := by
      apply List.map_congr_left
      intro i _
      show (l.drop (8192 * (i + 1))).take 8192 = ((l.drop 8192).drop (8192 * i)).take 8192
      rw [List.drop_drop, show 8192 + 8192 * i = 8192 * (i + 1) from by omega]
    rw [he, chunks_flatten m (l.drop 8192)
      (by rw [List.length_drop]; rw [Nat.mul_succ] at h; omega)]
    simp [List.take_append_drop]

/-! ## Claim theorems -/

/-- The selection of `(path, digest)` pairs that the claim C1 describes:
exactly the pairs whose path begins with `folder + "/"`.  Modelled from the
spec wording for comparison with the source predicate `folderPred`. -/
def claimFolderPairs (folder : String) (m : List (String × String)) :
    List (String × String) :=
  m.filter (fun pr => strStartsWith pr.1 (folder ++ "/"))

/-- C1 counterexample: for the root folder `"."` the digest is NOT determined
by the pairs whose path begins with `"./"` — the maps `[("a", "x")]` and `[]`
select the same (empty) set of `"./"`-prefixed pairs, yet their root digests
differ; and the root digest of `[("a/b.ts", "x")]` is the empty-folder
sentinel, so the root digest does not aggregate the subtree file `a/b.ts`. -/
theorem folder_hash_root_counterexample :
    claimFolderPairs "." [("a", "x")] = claimFolderPairs "." [] ∧
      compute_folder_hash "." [("a", "x")] ≠ compute_folder_hash "." [] ∧
      compute_folder_hash "." [("a/b.ts", "x")] = "" := by
  refine ⟨rfl, ?_, by decide⟩
  decide

/-- C1 (amended): `compute_folder_hash folder M` is determined by exactly the
pairs of `M` satisfying the source predicate `folderPred folder`, which for
a non-root folder is precisely "path begins with `folder + "/"`" (so a
non-root folder aggregates its entire subtree), while for the root folder
`"."` it is "path begins with `"./"` or path contains no `/`" — the root
digest covers only top-level files, not the whole subtree. -/
theorem folder_hash_determined_by_folder_pairs :
    (∀ (folder : String) (M1 M2 : List (String × String)),
        (M1.filter (folderPred folder)).Perm (M2.filter (folderPred folder)) →
        compute_folder_hash folder M1 = compute_folder_hash folder M2) ∧
      (∀ (folder : String) (pr : String × String), folder ≠ "." →
        folderPred folder pr = strStartsWith pr.1 (folder ++ "/")) ∧
      (∀ pr : String × String,
        folderPred "." pr = (strStartsWith pr.1 "./" || !hasChar pr.1.data '/')) := by
  refine ⟨folderHash_congr, ?_, ?_⟩
  · intro folder pr h
    simp [folderPred, h]
  · intro pr
    simp [folderPred]

/-- C1 witness: the amended determinacy applied at folder `"src"` to two maps
with the same folder pairs in different positions. -/
theorem folder_hash_determined_by_folder_pairs_witness :
    compute_folder_hash "src" [("src/a.ts", "h1"), ("x", "h2")] =
      compute_folder_hash "src" [("x", "h3"), ("src/a.ts", "h1")] :=
  folder_hash_determined_by_folder_pairs.1 "src" _ _ (by decide)

/-- C2: the change report of `cmd_changes` — `added` is exactly the keys only
in `currentDigests`, `removed` exactly the keys only in `savedDigests`,
`modified` exactly the keys in both whose (dict-lookup) values differ, equal
sentinel digests compare as unchanged, `affectedFolders` is exactly the union
over changed paths of the ancestor-directory prefixes plus the root, and a
change to `a/b/c.ts` yields affected folders `{"a", "a/b", "."}`. -/
theorem cmd_changes_spec :
    (∀ (saved current : List (String × String)) (k : String),
        k ∈ changes_added saved current ↔ k ∈ keysOf current ∧ k ∉ keysOf saved) ∧
      (∀ (saved current : List (String × String)) (k : String),
        k ∈ changes_removed saved current ↔ k ∈ keysOf saved ∧ k ∉ keysOf current) ∧
      (∀ (saved current : List (String × String)) (k : String),
        k ∈ changes_modified saved current ↔
          k ∈ keysOf current ∧ k ∈ keysOf saved ∧
            lookupStr current k ≠ lookupStr saved k) ∧
      (∀ (saved current : List (String × String)) (k : String),
        lookupStr saved k = some "" → lookupStr current k = some "" →
          k ∉ changes_modified saved current) ∧
      (∀ (saved current : List (String × String)) (f : String),
        f ∈ changes_affected saved current ↔
          ∃ p, (p ∈ changes_added saved current ∨ p ∈ changes_removed saved current ∨
                 p ∈ changes_modified saved current) ∧
               (f ∈ ancestorJoins p ∨ f = ".")) ∧
      changes_affected [("a/b/c.ts", "1")] [("a/b/c.ts", "2")] = ["a", "a/b", "."] := by
  refine ⟨?_, ?_, ?_, ?_, ?_, by decide⟩
  · intro s c k
    simp [changes_added, List.mem_filter, hasElem_false_iff]
  · intro s c k
    simp [changes_removed, List.mem_filter, hasElem_false_iff]
  · intro s c k
    simp only [changes_modified, List.mem_filter, Bool.and_eq_true, decide_eq_true_eq,
      hasElem_iff]
  · intro s c k h1 h2 hm
    rw [changes_modified, List.mem_filter] at hm
    obtain ⟨_, hne⟩ := andE hm.2
    rw [decide_eq_true_eq] at hne
    exact hne (h2.trans h1.symm)
  · intro s c f
    rw [changes_affected, mem_dedupFirst]
    simp only [List.mem_flatMap, List.mem_append, List.mem_singleton, List.not_mem_nil,
      not_false_eq_true, and_true, or_assoc]

/-- C2 witness: equal sentinel digests (the empty string on both sides) are
not reported as modified. -/
theorem cmd_changes_spec_witness :
    "f" ∉ changes_modified [("f", "")] [("f", "")] :=
  cmd_changes_spec.2.2.2.1 [("f", "")] [("f", "")] "f" rfl rfl

/-- C3: a path matched by the compiled gitignore predicate is never in the
output of `select_files`, whatever the include, exclude and exception lists
are — in particular even when it is in the exception set. -/
theorem ignore_wins (fs : List (List String)) (inc exc excp gi : List String)
    (p : String) (h : (PatternMatcher.mk gi).matches p = true) :
    p ∉ select_files fs inc exc excp gi := by
  intro hmem
  simp only [select_files] at hmem
  rw [List.mem_insertionSort] at hmem
  have hk := (List.mem_filter.1 hmem).2
  simp [fileKept, h] at hk

/-- C3 witness: `a.txt` matches the ignore pattern `*.txt` and is listed as an
exception (and matched by the include pattern), yet it is not selected. -/
theorem ignore_wins_witness :
    "a.txt" ∉ select_files [["a.txt"]] ["**/*"] [] ["a.txt"] ["*.txt"] :=
  ignore_wins _ _ _ _ _ _ (by decide)

/-- C4: a discovered path that does not match the ignore predicate and is
literally present in the exception set is selected, even if it matches the
exclude predicate and matches no include pattern. -/
theorem exception_overrides_exclude (fs : List (List String))
    (inc exc excp gi : List String) (p : String)
    (hcand : p ∈ (walkRelPaths fs).map (fun s => stripDotSlash (toSlash s)))
    (hign : (PatternMatcher.mk gi).matches p = false)
    (hexc : (PatternMatcher.mk exc).matches p = true)
    (hexcp : hasElem excp p = true)
    (hinc : (PatternMatcher.mk inc).matches p = false) :
    p ∈ select_files fs inc exc excp gi := by
  simp only [select_files]
  rw [List.mem_insertionSort]
  refine List.mem_filter.2 ⟨hcand, ?_⟩
  simp [fileKept, hign, hexc, hexcp, hinc]

/-- C4 witness: `secret.txt` matches the exclude pattern `*.txt`, is an
exception, matches no include pattern (the include list is empty), and is
selected. -/
theorem exception_overrides_exclude_witness :
    "secret.txt" ∈ select_files [["secret.txt"]] [] ["*.txt"] ["secret.txt"] [] :=
  exception_overrides_exclude _ _ _ _ _ _ (by decide) (by decide) (by decide)
    (by decide) (by decide)

/-- C5: a pattern not beginning with `/` matches a path iff its compiled
fragment matches the whole path or a suffix starting immediately after some
`/` (any depth); a pattern beginning with `/` matches only via its fragment
anchored at the start of the path; and the single pattern `node_modules/`
matches `node_modules/foo.js` and `vendor/node_modules/bar.js` but not
`README.md`. -/
theorem pattern_anchoring :
    (∀ p path : String, strStartsWith p "/" = false →
        ((PatternMatcher.mk [p]).matches path = true ↔
          (tokensMatch (compiledFrag p) path.data = true ∨
            ∃ pre post, path.data = pre ++ '/' :: post ∧
              tokensMatch (compiledFrag p) post = true))) ∧
      (∀ p path : String, strStartsWith p "/" = true →
        (PatternMatcher.mk [p]).matches path =
          tokensMatch (compiledFrag p).tail path.data) ∧
      (PatternMatcher.mk ["node_modules/"]).matches "node_modules/foo.js" = true ∧
      (PatternMatcher.mk ["node_modules/"]).matches "vendor/node_modules/bar.js" = true ∧
      (PatternMatcher.mk ["node_modules/"]).matches "README.md" = false := by
  refine ⟨?_, ?_, by decide, by decide, by decide⟩
  · intro p path hp
    simp only [PatternMatcher.matches, patMatchOne, hp, List.isEmpty, List.any,
      if_false, Bool.false_eq_true, Bool.or_false, ite_false]
    rw [Bool.or_eq_true, List.any_eq_true]
    constructor
    · rintro (h | ⟨s, hs, hts⟩)
      · exact Or.inl h
      · obtain ⟨pre, hpre⟩ := (mem_afterSlashSuffixes path.data s).1 hs
        exact Or.inr ⟨pre, s, hpre, hts⟩
    · rintro (h | ⟨pre, post, hpp, hts⟩)
      · exact Or.inl h
      · exact Or.inr ⟨post, (mem_afterSlashSuffixes path.data post).2 ⟨pre, hpp⟩, hts⟩
  · intro p path hp
    simp [PatternMatcher.matches, patMatchOne, hp]

/-- C5 witness: the any-depth characterisation applied to `node_modules/`
against `vendor/node_modules/bar.js`, with the after-slash split exhibited
explicitly. -/
theorem pattern_anchoring_witness :
    (PatternMatcher.mk ["node_modules/"]).matches "vendor/node_modules/bar.js" = true :=
  (pattern_anchoring.1 "node_modules/" "vendor/node_modules/bar.js" (by decide)).mpr
    (Or.inr ⟨"vendor".data, "node_modules/bar.js".data, by decide, by decide⟩)

/-- C6 counterexample, both halves of the claim.  Duplicates: on a POSIX
filesystem holding a root file literally named `a\b` and a file `b` inside
directory `a`, the backslash-to-slash rewrite of `select_files` maps both to
the relative path `a/b`, so the returned list contains a duplicate.  Order:
`sorted` compares `Path` values by their `parts` tuples, so the files `a.txt`
and `a/x` come back as `["a/x", "a.txt"]`, which is not in the code-point
lexicographic order of the path strings (`"a.txt" < "a/x"` there, since
`.` = 46 < `/` = 47). -/
theorem select_files_duplicate_counterexample :
    select_files [["a\\b"], ["a", "b"]] ["**/*"] [] [] [] = ["a/b", "a/b"] ∧
      ¬(select_files [["a\\b"], ["a", "b"]] ["**/*"] [] [] []).Nodup ∧
      select_files [["a.txt"], ["a", "x"]] ["**/*"] [] [] [] = ["a/x", "a.txt"] ∧
      ¬List.Sorted pathLe (select_files [["a.txt"], ["a", "x"]] ["**/*"] [] [] []) := by
  refine ⟨by decide, by decide, by decide, by decide⟩

/-- C6 (amended): for a well-formed filesystem — distinct files, and every
name nonempty, not `.`, without `/` and without `\` — `select_files` returns
a duplicate-free list sorted in the program's `Path` order: relative paths
compared by their slash-separated component sequences, components by code
point.  Concretely `a/x` precedes `a.txt`. -/
theorem select_files_sorted_nodup :
    (∀ (fs : List (List String)) (inc exc excp gi : List String),
        fsOk fs = true →
        (select_files fs inc exc excp gi).Nodup ∧
          List.Sorted partsLe (select_files fs inc exc excp gi)) ∧
      select_files [["a.txt"], ["a", "x"]] ["**/*"] [] [] [] = ["a/x", "a.txt"] := by
  refine ⟨?_, by decide⟩
  intro fs inc exc excp gi h
  constructor
  · have hokAll : ∀ s ∈ fs, fileOk s = true := fun s hs =>
      List.all_eq_true.1 (andE h).1 s hs
    simp only [select_files]
    rw [map_strip_walk fs hokAll]
    exact ((List.perm_insertionSort partsLe _).nodup_iff).2 ((walk_nodup fs h).filter _)
  · simp only [select_files]
    exact List.sorted_insertionSort partsLe _

/-- C6 witness: the amended sortedness and duplicate-freedom on a concrete
well-formed filesystem. -/
theorem select_files_sorted_nodup_witness :
    (select_files [["b"], ["a", "c"]] ["**/*"] [] [] []).Nodup ∧
      List.Sorted partsLe (select_files [["b"], ["a", "c"]] ["**/*"] [] [] []) :=
  select_files_sorted_nodup.1 _ _ _ _ _ (by decide)

/-- C7: `compute_folder_hash` is invariant under any permutation of the input
map, so it is a pure function of the set of `(path, digest)` pairs. -/
theorem folder_hash_order_independent (folder : String)
    (M1 M2 : List (String × String)) (h : M1.Perm M2) :
    compute_folder_hash folder M1 = compute_folder_hash folder M2 :=
  folderHash_congr folder M1 M2 (h.filter _)

/-- C7 witness: permuting a concrete two-entry map leaves the folder digest
unchanged. -/
theorem folder_hash_order_independent_witness :
    compute_folder_hash "src" [("src/a.ts", "h1"), ("src/b.ts", "h2")] =
      compute_folder_hash "src" [("src/b.ts", "h2"), ("src/a.ts", "h1")] :=
  folder_hash_order_independent "src" _ _ (by decide)

/-- C8: `compute_file_hash` never propagates a read error — an unreadable
file yields the empty-string sentinel (so any two unreadable files get equal
digests), and a readable file yields the MD5 hex digest of its bytes (the
8192-byte chunking is invisible in the result). -/
theorem compute_file_hash_spec :
    compute_file_hash none = "" ∧
      ∀ bytes : List Nat, compute_file_hash (some bytes) = md5Hex bytes := by
  refine ⟨rfl, fun bytes => ?_⟩
  show md5Hex _ = md5Hex bytes
  congr 1
  apply chunks_flatten
  have hdm := Nat.div_add_mod (bytes.length + 8191) 8192
  have hlt : (bytes.length + 8191) % 8192 < 8192 := Nat.mod_lt _ (by norm_num)
  omega

/-- C9: `cmd_update` fails with result 1 when no snapshot loads; otherwise it
re-selects with the include/exclude/exception lists stored in the snapshot
metadata, replaces `file_hashes` and `folder_hashes` wholesale with freshly
computed maps, rewrites `last_run` to the current time, and leaves `version`,
`root`, `include_patterns`, `exclude_patterns` and `exceptions` unchanged. -/
theorem cmd_update_spec :
    (∀ (fs : List (List String)) (rf : String → Option (List Nat))
        (gi : List String) (now : String),
        cmd_update none fs rf gi now = (none, 1)) ∧
      (∀ (s : CartState) (fs : List (List String))
        (rf : String → Option (List Nat)) (gi : List String) (now : String),
        cmd_update (some s) fs rf gi now =
          (some
            { metadata :=
                { version := s.metadata.version
                  last_run := now
                  root := s.metadata.root
                  include_patterns := s.metadata.include_patterns
                  exclude_patterns := s.metadata.exclude_patterns
                  exceptions := s.metadata.exceptions }
              file_hashes :=
                (select_files fs s.metadata.include_patterns s.metadata.exclude_patterns
                    s.metadata.exceptions gi).map
                  (fun p => (p, compute_file_hash (rf p)))
              folder_hashes :=
                (get_folders_with_files
                    (select_files fs s.metadata.include_patterns
                      s.metadata.exclude_patterns s.metadata.exceptions gi)).map
                  (fun folder =>
                    (folder,
                      compute_folder_hash folder
                        ((select_files fs s.metadata.include_patterns
                              s.metadata.exclude_patterns s.metadata.exceptions gi).map
                          (fun p => (p, compute_file_hash (rf p)))))) }, 0)) :=
  ⟨fun _ _ _ _ => rfl, fun _ _ _ _ _ => rfl⟩

/-- C10: hidden-name pruning applies only to directories — on a well-formed
filesystem no file under a hidden directory is ever selected, while a file in
visible directories (in particular one whose own name begins with `.`) is a
normal candidate, selected exactly when it passes the ignore/exclude/
include-or-exception decision; concretely, with include `**/*` the hidden
root file `.env` is selected while `cfg` inside the hidden directory `.git`
is not. -/
theorem hidden_pruning :
    (∀ (fs : List (List String)) (inc exc excp gi : List String)
        (segs : List String), fsOk fs = true → segs ∈ fs →
        (∃ d ∈ segs.dropLast, strStartsWith d "." = true) →
        joinSegs segs ∉ select_files fs inc exc excp gi) ∧
      (∀ (fs : List (List String)) (inc exc excp gi : List String)
        (segs : List String), segs ∈ fs → visibleFile segs = true →
        (stripDotSlash (toSlash (joinSegs segs)) ∈ select_files fs inc exc excp gi ↔
          fileKept (PatternMatcher.mk gi) (PatternMatcher.mk exc)
              (PatternMatcher.mk inc) excp
              (stripDotSlash (toSlash (joinSegs segs))) = true)) ∧
      select_files [[".env"], [".git", "cfg"]] ["**/*"] [] [] [] = [".env"] := by
  refine ⟨?_, ?_, by decide⟩
  · rintro fs inc exc excp gi segs hok hmem ⟨d, hd, hdh⟩ hsel
    have hokAll : ∀ s ∈ fs, fileOk s = true := fun s hs =>
      List.all_eq_true.1 (andE hok).1 s hs
    simp only [select_files] at hsel
    rw [List.mem_insertionSort] at hsel
    have hc := (List.mem_filter.1 hsel).1
    rw [map_strip_walk fs hokAll] at hc
    unfold walkRelPaths at hc
    obtain ⟨q, hq, he⟩ := List.mem_map.1 hc
    have hqf := List.mem_filter.1 hq
    obtain ⟨hqne, hqall⟩ := fileOk_props (hokAll q hqf.1)
    obtain ⟨hsne, hsall⟩ := fileOk_props (hokAll segs hmem)
    have hqs : q = segs := joinSegs_inj q segs hqall hsall hqne hsne he
    rw [hqs] at hqf
    have hv := List.all_eq_true.1 hqf.2 d hd
    rw [hdh] at hv
    exact absurd hv (by simp)
  · intro fs inc exc excp gi segs hmem hvis
    simp only [select_files]
    rw [List.mem_insertionSort, List.mem_filter]
    constructor
    · exact fun h => h.2
    · intro hk
      refine ⟨?_, hk⟩
      exact List.mem_map_of_mem _
        (List.mem_map_of_mem _ (List.mem_filter.2 ⟨hmem, hvis⟩))

/-- C10 witness: the pruning statement applied to the concrete hidden
directory `.git`. -/
theorem hidden_pruning_witness :
    joinSegs [".git", "x"] ∉ select_files [[".git", "x"]] ["**/*"] [] [] [] :=
  hidden_pruning.1 _ _ _ _ _ _ (by decide) (by decide) ⟨".git", by decide, by decide⟩

end Cartographer
